import Mathlib

/-!
# Verification of the pytest-html result-tree core

This file gives a shallow embedding, in Lean 4, of the core algorithms of the
`pytest_html/plugin.py` module: the namespace-chain builder
(`get_simplified_chain`), the fixture dependency resolver
(`get_fixture_dependancies`), the autouse cascade and the scope-based
attachment-index computation of `HTMLReport._appendrow`, the interning
constructors of `ParameterizedFixtureStateInfo` and `Node`, the outcome
classification of `HTMLReport.append_failed`, and the per-event tree/summary
update performed by `HTMLReport._appendrow`.

Modelling conventions:
* Python object identity (the default `==` of objects without `__eq__`, and the
  identity of interned instances) is modelled by an explicit numeric `objId`
  field, or by the index of the instance in the interning list.
* Python exceptions are modelled with explicit result constructors
  (`PyResult.raised`); a function that may raise returns such a result.
* Python float durations are IEEE-754 binary64 values; they are represented
  by their exact rational values, and the `+` that accumulates them rounds
  the exact sum back to binary64 (`floatAdd`, round to nearest, ties to even,
  normal range), so float accumulation keeps its order-dependence.
* The unbounded recursion of `get_fixture_dependancies` is modelled with an
  explicit fuel parameter; `none` means the recursion depth was exhausted.
-/

/-- The identity-relevant content of a `ParameterizedFixtureStateInfo` as used
by its `__eq__`: the identity of the live `fixture_def` object (Python compares
`FixtureDef` objects, which define no `__eq__`, by identity) and the
`param_index`. -/
structure PFSIKey where
  fixtureDefId : Nat
  param_index : Option Nat
deriving DecidableEq, Repr

/-- The Python exceptions relevant to the id-resolution code paths. -/
inductive PyErr where
  | typeError
  | indexError
  | otherError
deriving DecidableEq, Repr

/-- The `ids` declaration of a fixture: either a list of ids or a callable.
Subscripting a callable raises `TypeError`; calling a list raises `TypeError`;
the callable itself may raise. -/
inductive IdsDecl (α : Type) where
  | pylist (xs : List α)
  | pycallable (f : α → Except PyErr α)

/-- The fields of a live pytest `FixtureDef` read by the plugin, together with
an `objId` modelling the Python object identity of the live object. -/
structure FixtureDefM (α : Type) where
  objId : Nat
  argname : String
  baseid : String
  params : List α
  ids : Option (IdsDecl α)

/-- Result of evaluating a Python property that may raise or may produce the
`"unknown"` sentinel. -/
inductive PyResult (α : Type) where
  | ok (a : α)
  | strUnknown
  | raised (e : PyErr)
deriving DecidableEq, Repr

/-- `ParameterizedFixtureStateInfo.value`: `params[param_index]` when
`param_index` is not `None` (raising `IndexError` when out of range), the
string `"unknown"` otherwise. -/
def pfsi_value {α : Type} (fd : FixtureDefM α) (param_index : Option Nat) : PyResult α :=
  match param_index with
  | none => .strUnknown
  | some idx =>
    match fd.params[idx]? with
    | some v => .ok v
    | none => .raised .indexError

/-- Python truthiness of the `ids` attribute: `None` and the empty list are
falsy, a non-empty list and any callable are truthy. -/
def idsTruthy {α : Type} : Option (IdsDecl α) → Bool
  | none => false
  | some (.pylist xs) => !xs.isEmpty
  | some (.pycallable _) => true

/-- `ParameterizedFixtureStateInfo.description`: when `ids` is truthy and
`param_index` is not `None`, try `ids[param_index]` (an out-of-range index on a
list raises `IndexError`, which is not caught; subscripting a callable raises
`TypeError`, which is caught); on `TypeError`, try `ids(self.value)` (a
`TypeError` from the call is caught, falling back to `self.value`; any other
exception propagates). Otherwise return `self.value`. -/
def description {α : Type} (fd : FixtureDefM α) (param_index : Option Nat) : PyResult α :=
  match fd.ids, param_index with
  | some ids, some idx =>
    if idsTruthy (some ids) then
      match ids with
      | .pylist xs =>
        match xs[idx]? with
        | some v => .ok v
        | none => .raised .indexError
      | .pycallable f =>
        match fd.params[idx]? with
        | none => .raised .indexError
        | some v =>
          match f v with
          | .ok r => .ok r
          | .error .typeError => .ok v
          | .error e => .raised e
    else pfsi_value fd param_index
  | _, _ => pfsi_value fd param_index

/-- The state snapshot class: a live fixture definition plus the resolved
`param_index` (read with `getattr(..., "param_index", None)`). -/
structure ParameterizedFixtureStateInfo (α : Type) where
  fixture_def : FixtureDefM α
  param_index : Option Nat

/-- `ParameterizedFixtureStateInfo.__eq__`: `self.fixture_def ==
other.fixture_def` (object identity, since pytest's `FixtureDef` defines no
`__eq__`) and `self.param_index == other.param_index`. -/
def pfsiBeq {α : Type} (a b : ParameterizedFixtureStateInfo α) : Bool :=
  (a.fixture_def.objId == b.fixture_def.objId) && (a.param_index == b.param_index)

/-- The outcome categories of the report. -/
inductive Outcome where
  | passed
  | skipped
  | failed
  | error
  | xfailed
  | xpassed
  | rerun
deriving DecidableEq, Repr

/-- `HTMLReport.append_failed`: a failure report whose `when` attribute (read
with `getattr(report, 'when', None)`) equals `"call"` is classified `XPassed`
when the report carries `wasxfail`, else `Failed`; any other phase is
classified `Error`. -/
def append_failed (wh : Option String) (wasxfail : Bool) : Outcome :=
  if wh = some "call" then
    if wasxfail then Outcome.xpassed else Outcome.failed
  else Outcome.error

/-- `fix.param_index = item.callspec.indices.get(fix.argname, 0)` in
`HTMLReport._appendrow`: the callspec index of the fixture's argname, with
default `0` when the name has no entry. -/
def resolve_param_index (indices : List (String × Nat)) (argname : String) : Nat :=
  ((indices.lookup argname).getD 0)

/-- Python's `str.split(sep)` for a single-character separator, on the
character list of the string (left-to-right, keeping empty pieces, exactly as
in Python). -/
def splitOnChar (sep : Char) : List Char → List (List Char)
  | [] => [[]]
  | c :: cs =>
    if c = sep then [] :: splitOnChar sep cs
    else
      match splitOnChar sep cs with
      | [] => [[c]]
      | r :: rs => (c :: r) :: rs

/-- Python's `str.replace("::()", "")`: delete every (left-to-right,
non-overlapping) occurrence of the `::()` marker. -/
def removeColonParens : List Char → List Char
  | ':' :: ':' :: '(' :: ')' :: cs => removeColonParens cs
  | c :: cs => c :: removeColonParens cs
  | [] => []

/-- Python's `str.split("::")`: split on every (left-to-right,
non-overlapping) occurrence of the two-character separator `::`. -/
def splitDoubleColon : List Char → List (List Char)
  | ':' :: ':' :: cs => [] :: splitDoubleColon cs
  | c :: cs =>
    match splitDoubleColon cs with
    | [] => [[c]]
    | r :: rs => (c :: r) :: rs
  | [] => [[]]

/-- `get_simplified_chain`: cut the node id at the first `[` (keeping the whole
id when there is none), split on `/` into package segments, pop the last
segment, delete the `::()` marker from it, split it on `::`, and concatenate
package segments with the local segments. -/
def get_simplified_chain (nodeid : String) : List String :=
  let stripped := nodeid.toList.takeWhile (fun c => c ≠ '[')
  let parts := splitOnChar '/' stripped
  let local_chain := splitDoubleColon (removeColonParens (parts.getLastD []))
  (parts.dropLast ++ local_chain).map (fun cs => String.mk cs)

/-- The module-scope attachment-index computation of `HTMLReport._appendrow`:
`module_depth = len(item.module.__name__.split("."))`,
`fixture_depth = len(pf["baseid"].split("/"))`; when
`fixture_depth <= module_depth` the index is `module_depth - 1`, otherwise it
is `len(get_simplified_chain(pf["baseid"])) - 1`. -/
def module_scope_index (module_name : String) (baseid : String) : Nat :=
  let module_depth := (splitOnChar '.' module_name.toList).length
  let fixture_depth := (splitOnChar '/' baseid.toList).length
  if fixture_depth ≤ module_depth then module_depth - 1
  else (get_simplified_chain baseid).length - 1

/-- The module-scope attachment rule as the specification documents it
(spec 4.3, treated as canonical by spec 9): compare the depth of the fixture's
base-id *chain* to the module depth; a fixture declared at or above the module
level attaches at `module_depth - 1`, one declared below the module level
attaches at `(length of the test's chain) - 2`, as for class scope. -/
def module_scope_index_spec (module_name : String) (baseid : String)
    (test_chain_len : Nat) : Nat :=
  let module_depth := (splitOnChar '.' module_name.toList).length
  if (get_simplified_chain baseid).length ≤ module_depth then module_depth - 1
  else test_chain_len - 2

/-- Exact rational arithmetic written through the normalizing constructor
`Rat.divInt` (the library's `Rat.add`/`Rat.mul` are irreducible, which would
keep proofs from evaluating them). `ratAdd a b` is exactly `a + b`, and so
on. -/
def ratAdd (a b : Rat) : Rat :=
  Rat.divInt (a.num * b.den + b.num * a.den) (a.den * b.den)

/-- Exact rational subtraction; `ratSub a b = a - b`. -/
def ratSub (a b : Rat) : Rat :=
  Rat.divInt (a.num * b.den - b.num * a.den) (a.den * b.den)

/-- Exact rational multiplication; `ratMul a b = a * b`. -/
def ratMul (a b : Rat) : Rat :=
  Rat.divInt (a.num * b.num) (a.den * b.den)

/-- Exact rational division; `ratDiv a b = a / b` for `b ≠ 0`. -/
def ratDiv (a b : Rat) : Rat :=
  Rat.divInt (a.num * b.den) (a.den * b.num)

/-- Exact rational negation. -/
def ratNeg (a : Rat) : Rat :=
  Rat.divInt (-a.num) a.den

/-- `2 ^ e` as a rational, for an integer exponent. -/
def pow2 : Int → Rat
  | .ofNat n => Rat.divInt ((2 ^ n : Nat) : Int) 1
  | .negSucc n => Rat.divInt 1 ((2 ^ (n + 1) : Nat) : Int)

/-- Round a rational to the nearest integer, ties to even. -/
def roundNearestEven (y : Rat) : Int :=
  let f := y.floor
  let r := ratSub y (Rat.ofInt f)
  if r.blt (Rat.divInt 1 2) then f
  else if (Rat.divInt 1 2).blt r then f + 1
  else if f % 2 = 0 then f else f + 1

/-- Floor of the base-2 logarithm of a natural number, with explicit fuel so
that it is structurally recursive. -/
def natLog2 : Nat → Nat → Nat
  | 0, _ => 0
  | fuel + 1, n => if 2 ≤ n then natLog2 fuel (n / 2) + 1 else 0

/-- Floor of the base-2 logarithm of a positive rational. -/
def ratLog2 (x : Rat) : Int :=
  let l : Int := (natLog2 x.num.toNat x.num.toNat : Int) - (natLog2 x.den x.den : Int)
  if x.blt (pow2 l) then l - 1 else l

/-- Round a positive rational to the nearest IEEE-754 binary64 value (round
to nearest, ties to even): scale into the 53-bit window, round the
significand, scale back. -/
def floatRoundPos (x : Rat) : Rat :=
  let e := ratLog2 x - 52
  ratMul (Rat.ofInt (roundNearestEven (ratDiv x (pow2 e)))) (pow2 e)

/-- Round a rational to the nearest IEEE-754 binary64 value (round to
nearest, ties to even), for the normal range; the exact rational value of the
resulting double is returned. Subnormal underflow and overflow to infinity do
not occur for the durations considered and are not modelled. -/
def floatRound (x : Rat) : Rat :=
  if x = 0 then 0
  else if x.blt 0 then ratNeg (floatRoundPos (ratNeg x))
  else floatRoundPos x

/-- Python's `a + b` on floats: the exact sum rounded back to binary64. -/
def floatAdd (a b : Rat) : Rat := floatRound (ratAdd a b)

/-- The identity key of a `Node`, as compared by `Node.__eq__`: name,
namespace, params tuple (params are `ParameterizedFixtureStateInfo` instances,
compared by their own `__eq__`, i.e. by `PFSIKey`), and the parent node
(compared recursively by `__eq__`; `root` is a node with `parent=None`). -/
inductive NodeKey where
  | root (name : String) (nameSpace : String) (params : List PFSIKey)
  | child (name : String) (nameSpace : String) (params : List PFSIKey) (parent : NodeKey)
deriving DecidableEq, Repr

/-- The `name` attribute of a node. -/
def NodeKey.name : NodeKey → String
  | .root n _ _ => n
  | .child n _ _ _ => n

/-- The `namespace` attribute of a node. -/
def NodeKey.nameSpace : NodeKey → String
  | .root _ ns _ => ns
  | .child _ ns _ _ => ns

/-- The `params` attribute of a node. -/
def NodeKey.params : NodeKey → List PFSIKey
  | .root _ _ p => p
  | .child _ _ p _ => p

/-- The `parent_node` attribute of a node. -/
def NodeKey.parent : NodeKey → Option NodeKey
  | .root _ _ _ => none
  | .child _ _ _ p => some p

/-- `Node.__new__`: build the candidate instance, search
`Node._node_instances` for an equal one (`temp not in cls._node_instances` /
`cls._node_instances.index(temp)` use `__eq__`); return the index of the
existing instance if found, otherwise append the new instance and return its
index. The returned index models the identity of the returned object. -/
def nodeNew (instances : List NodeKey) (k : NodeKey) : Nat × List NodeKey :=
  if k ∈ instances then (instances.indexOf k, instances)
  else (instances.length, instances ++ [k])

/-- The per-node outcome tallies (`Node.summary` /
`results_tree["summary"]`): the six preset keys plus the `rerun` key that
`summary.get(outcome, 0) + 1` creates on demand. -/
structure Summary where
  passed : Nat
  skipped : Nat
  failed : Nat
  error : Nat
  xfailed : Nat
  xpassed : Nat
  rerun : Nat
deriving DecidableEq, Repr

/-- The zero summary every node and the session start with. -/
def Summary.zero : Summary := ⟨0, 0, 0, 0, 0, 0, 0⟩

/-- `summary.get(outcome.lower(), 0)`. -/
def Summary.get (s : Summary) : Outcome → Nat
  | .passed => s.passed
  | .skipped => s.skipped
  | .failed => s.failed
  | .error => s.error
  | .xfailed => s.xfailed
  | .xpassed => s.xpassed
  | .rerun => s.rerun

/-- `summary[outcome.lower()] = summary.get(outcome.lower(), 0) + 1`. -/
def Summary.bump (s : Summary) : Outcome → Summary
  | .passed => { s with passed := s.passed + 1 }
  | .skipped => { s with skipped := s.skipped + 1 }
  | .failed => { s with failed := s.failed + 1 }
  | .error => { s with error := s.error + 1 }
  | .xfailed => { s with xfailed := s.xfailed + 1 }
  | .xpassed => { s with xpassed := s.xpassed + 1 }
  | .rerun => { s with rerun := s.rerun + 1 }

/-- One entry of the `simple_chain` built by `HTMLReport._appendrow`: a
namespace segment name and the parameter descriptors attached at that
segment. -/
structure Link where
  name : String
  params : List PFSIKey
deriving DecidableEq, Repr

/-- A `SimplifiedTestResult` leaf: the last chain entry's name and params, the
full node id, the outcome and the duration. (Location, log and extras are
carried along unchanged by the core and are omitted.) -/
structure Leaf where
  name : String
  nodeid : String
  outcome : Outcome
  duration : Rat
  params : List PFSIKey
deriving DecidableEq, Repr

/-- One completed-test event as consumed by `HTMLReport._appendrow`: the
`simple_chain` (with attached parameter descriptors; the last entry is the
test itself), the node id, the classified outcome and the report duration
(a binary64 float, represented by its exact rational value). -/
structure Event where
  chain : List Link
  nodeid : String
  outcome : Outcome
  duration : Rat
deriving DecidableEq, Repr

/-- The mutable state of one interned `Node`: its identity key plus its
summary, cumulative duration (a binary64 float accumulated by `floatAdd`,
represented by its exact rational value), children (by key — children are
themselves interned) and directly attached leaf results. -/
structure NodeRec where
  key : NodeKey
  summary : Summary
  duration : Rat
  children : List NodeKey
  test_results : List Leaf
deriving DecidableEq, Repr

/-- The report state: the interned node instances with their state
(`Node._node_instances`), the root list `results_tree["results"]`, and the
session summary `results_tree["summary"]`. -/
structure ReportState where
  nodes : List NodeRec
  results : List NodeKey
  summary : Summary
deriving DecidableEq, Repr

/-- The empty report state. -/
def initState : ReportState := { nodes := [], results := [], summary := Summary.zero }

/-- The key of the `Node(name=link["name"], namespace=..., parent=prev_node,
params=params)` constructed for a chain entry: the namespace is the parent's
namespace dot the name, or just the name at the root. -/
def extendKey (parent : Option NodeKey) (link : Link) : NodeKey :=
  match parent with
  | none => .root link.name link.name link.params
  | some p => .child link.name (p.nameSpace ++ "." ++ link.name) link.params p

/-- A freshly constructed, zero-state node instance. -/
def freshNode (k : NodeKey) : NodeRec :=
  { key := k, summary := Summary.zero, duration := 0,
    children := [], test_results := [] }

/-- Interning half of `Node.__new__` inside the report state: append a fresh
zero-state instance unless an equal one already exists. -/
def internNode (nodes : List NodeRec) (k : NodeKey) : List NodeRec :=
  if nodes.any (fun n => n.key == k) then nodes
  else nodes ++ [freshNode k]

/-- `node.summary[outcome] += 1; node.duration += test_duration` on the
instance with the given key; the duration accumulation is IEEE-754 float
addition (`floatAdd`), as in the source, so it rounds after every step. -/
def bumpNode (nodes : List NodeRec) (k : NodeKey) (o : Outcome) (d : Rat) :
    List NodeRec :=
  nodes.map (fun n =>
    if n.key == k then
      { n with summary := n.summary.bump o, duration := floatAdd n.duration d }
    else n)

/-- `if node not in prev_node.children: prev_node.children.append(node)`. -/
def addChild (nodes : List NodeRec) (parent : NodeKey) (c : NodeKey) :
    List NodeRec :=
  nodes.map (fun n =>
    if n.key == parent then
      if n.children.contains c then n else { n with children := n.children ++ [c] }
    else n)

/-- `prev_node.test_results.append(n)`. -/
def addLeaf (nodes : List NodeRec) (k : NodeKey) (leaf : Leaf) : List NodeRec :=
  nodes.map (fun n =>
    if n.key == k then { n with test_results := n.test_results ++ [leaf] } else n)

/-- One non-leaf iteration of the chain loop of `HTMLReport._appendrow`:
construct (intern) the node, register it as a root (when it has no parent) or
as a child of the previous node, and bump its summary and duration. Returns
the updated state and the node's key (the new `prev_node`). -/
def processBranch (st : ReportState) (parent : Option NodeKey) (o : Outcome)
    (d : Rat) (link : Link) : ReportState × NodeKey :=
  let k := extendKey parent link
  let nodes := internNode st.nodes k
  let results :=
    match parent with
    | none => if st.results.contains k then st.results else st.results ++ [k]
    | some _ => st.results
  let nodes :=
    match parent with
    | none => nodes
    | some p => addChild nodes p k
  let nodes := bumpNode nodes k o d
  ({ st with nodes := nodes, results := results }, k)

/-- The chain loop over all non-leaf entries, threading `prev_node`. -/
def processBranches (st : ReportState) (parent : Option NodeKey) (o : Outcome)
    (d : Rat) : List Link → ReportState × Option NodeKey
  | [] => (st, parent)
  | l :: ls =>
    let r := processBranch st parent o d l
    processBranches r.1 (some r.2) o d ls

/-- `HTMLReport._appendrow`, after the parameter descriptors have been
attached to the chain: run the chain loop over all entries but the last,
attach the `SimplifiedTestResult` leaf built from the last entry to the final
branch node, and bump the session summary. (When the chain has fewer than two
entries the source would dereference a `None` parent; events are required to
have chains of length at least two.) -/
def appendEvent (st : ReportState) (e : Event) : ReportState :=
  let r := processBranches st none e.outcome e.duration e.chain.dropLast
  let leafLink := e.chain.getLastD { name := "", params := [] }
  let leaf : Leaf := { name := leafLink.name, nodeid := e.nodeid,
                       outcome := e.outcome, duration := e.duration,
                       params := leafLink.params }
  let nodes :=
    match r.2 with
    | some p => addLeaf r.1.nodes p leaf
    | none => r.1.nodes
  { r.1 with nodes := nodes, summary := r.1.summary.bump e.outcome }

/-- Feeding a sequence of completed-test events through the report, in
order. -/
def processEvents (st : ReportState) (events : List Event) : ReportState :=
  events.foldl appendEvent st

/-- The keys of the nodes a chain of links constructs, starting from a given
parent. -/
def chainKeys (parent : Option NodeKey) : List Link → List NodeKey
  | [] => []
  | l :: ls =>
    let k := extendKey parent l
    k :: chainKeys (some k) ls

/-- The keys of the branch nodes an event's chain constructs. -/
def eventKeys (e : Event) : List NodeKey := chainKeys none e.chain.dropLast

/-- The (parent, child) registrations a chain of links performs, starting
from a given parent. -/
def chainPairs (parent : Option NodeKey) : List Link → List (NodeKey × NodeKey)
  | [] => []
  | l :: ls =>
    let k := extendKey parent l
    match parent with
    | none => chainPairs (some k) ls
    | some p => (p, k) :: chainPairs (some k) ls

/-- The (parent, child) registrations an event performs. -/
def childPairs (e : Event) : List (NodeKey × NodeKey) :=
  chainPairs none e.chain.dropLast

/-- The `prev_node` value after a chain of links has been processed. -/
def chainEnd (parent : Option NodeKey) : List Link → Option NodeKey
  | [] => parent
  | l :: ls => chainEnd (some (extendKey parent l)) ls

/-- The number of ancestors of a node key, itself included. -/
def NodeKey.depth : NodeKey → Nat
  | .root _ _ _ => 1
  | .child _ _ _ p => p.depth + 1

/-- The first interned instance with a given key in a node list, if any. -/
def findNodeL (nodes : List NodeRec) (k : NodeKey) : Option NodeRec :=
  nodes.find? (fun n => n.key == k)

/-- Whether a node with the given key has been interned, at the list level. -/
def memL (nodes : List NodeRec) (k : NodeKey) : Bool := (findNodeL nodes k).isSome

/-- The summary count of the node with a given key in a node list (0 when
absent). -/
def summaryL (nodes : List NodeRec) (k : NodeKey) (o : Outcome) : Nat :=
  match findNodeL nodes k with
  | some n => n.summary.get o
  | none => 0

/-- The cumulative duration of the node with a given key in a node list (0
when absent). -/
def durationL (nodes : List NodeRec) (k : NodeKey) : Rat :=
  match findNodeL nodes k with
  | some n => n.duration
  | none => 0

/-- The children list of the node with a given key in a node list ([] when
absent). -/
def childrenL (nodes : List NodeRec) (k : NodeKey) : List NodeKey :=
  match findNodeL nodes k with
  | some n => n.children
  | none => []

/-- The leaves attached to the node with a given key in a node list. -/
def leavesL (nodes : List NodeRec) (k : NodeKey) : List Leaf :=
  match findNodeL nodes k with
  | some n => n.test_results
  | none => []

/-- The interned instance with a given key, if any. -/
def findNode (st : ReportState) (k : NodeKey) : Option NodeRec :=
  findNodeL st.nodes k

/-- Whether a node with the given key has been interned. -/
def nodeMem (st : ReportState) (k : NodeKey) : Bool := memL st.nodes k

/-- The summary count of the node with the given key (0 when absent). -/
def nodeSummary (st : ReportState) (k : NodeKey) (o : Outcome) : Nat :=
  summaryL st.nodes k o

/-- The cumulative duration of the node with the given key (0 when absent). -/
def nodeDuration (st : ReportState) (k : NodeKey) : Rat :=
  durationL st.nodes k

/-- The children list of the node with the given key ([] when absent). -/
def nodeChildren (st : ReportState) (k : NodeKey) : List NodeKey :=
  childrenL st.nodes k

/-- The directly attached leaves of the node with the given key. -/
def nodeLeaves (st : ReportState) (k : NodeKey) : List Leaf :=
  leavesL st.nodes k

/-- A two-fixture scenario for the autouse cascade: fixture `a` is declared
autouse and depends on `b`; fixture `b` is declared `autouse=False`. -/
def exKeys : List String := ["a", "b"]

/-- Dependency sets of the two-fixture scenario, as computed by
`get_fixture_dependancies`. -/
def exDep : String → List String := fun n => if n = "a" then ["b"] else []

/-- Declared autouse flags of the two-fixture scenario. -/
def exDeclared : String → Bool := fun n => n == "a"

/-- A live fixture definition used to build descriptors. -/
def exFixA : FixtureDefM Nat :=
  { objId := 0, argname := "f", baseid := "tests/test_x.py",
    params := [10, 20], ids := none }

/-- A second live fixture definition, field-wise identical to `exFixA` but a
distinct Python object. -/
def exFixB : FixtureDefM Nat := { exFixA with objId := 1 }

/-- A parameterized fixture with two parameter values but a declared ids list
of length one (a mismatched `ids` declaration). -/
def exIdsShort : FixtureDefM Nat :=
  { objId := 2, argname := "g", baseid := "tests/test_x.py",
    params := [10, 20], ids := some (.pylist [100]) }

/-- The completed-test event for the scenario test id
`tests/test_x.py::TestC::test_m[1]` with no parameterized fixtures: every
chain entry carries an empty parameter list. -/
def scenarioEvent : Event :=
  { chain := (get_simplified_chain "tests/test_x.py::TestC::test_m[1]").map
      (fun n => { name := n, params := [] }),
    nodeid := "tests/test_x.py::TestC::test_m[1]",
    outcome := .passed,
    duration := 0 }

/-- A second completed-test event in the same module (a failing test in the
same class), used to exercise order commutativity. -/
def scenarioEventB : Event :=
  { chain := (get_simplified_chain "tests/test_x.py::TestC::test_n").map
      (fun n => { name := n, params := [] }),
    nodeid := "tests/test_x.py::TestC::test_n",
    outcome := .failed,
    duration := 1 }

/-- A completed-test event of duration `10 ^ 16` (a binary64-representable
value) on the two-segment chain `a :: t`. -/
def evBig : Event :=
  { chain := [{ name := "a", params := [] }, { name := "t", params := [] }],
    nodeid := "a/t_big", outcome := .passed, duration := 10000000000000000 }

/-- A completed-test event of duration 1 on the same two-segment chain. -/
def evOne : Event :=
  { chain := [{ name := "a", params := [] }, { name := "t", params := [] }],
    nodeid := "a/t_one", outcome := .passed, duration := 1 }

/-- One outer-iteration body of the autouse cascade of `HTMLReport._appendrow`:
scan all fixtures `fixk` (the keys of `dependancies`); when some `fixk` whose
current `autouse` flag is true has `fixname` in its dependency set, set
`fixname`'s flag to true. -/
def cascadeStep (keys : List String) (dep : String → List String)
    (st : String → Bool) (fixname : String) : String → Bool :=
  if keys.any (fun fixk => st fixk && (dep fixk).contains fixname) then
    fun n => if n = fixname then true else st n
  else st

/-- The full autouse cascade: iterate the step over every fixture name, in
order, mutating the flag map in place. -/
def cascadeAutouse (keys : List String) (dep : String → List String)
    (declared : String → Bool) : String → Bool :=
  keys.foldl (cascadeStep keys dep) declared

/-- `get_fixture_dependancies` with explicit fuel: a name with no fixture
definition has no dependencies; otherwise union, over the definition's
`argnames`, of the name itself and its recursive dependency set. `none` means
the recursion depth was exhausted — the source has no cycle guard, so its
recursion is reproduced fuel-step for call-step. -/
def get_fixture_dependancies : Nat → String → List (String × List String) →
    Option (Finset String)
  | 0, _, _ => none
  | Nat.succ fuel, name, fixturedefs =>
    match fixturedefs.lookup name with
    | none => some ∅
    | some argnames =>
      argnames.foldl
        (fun acc arg =>
          match acc, get_fixture_dependancies fuel arg fixturedefs with
          | some s, some sub => some (insert arg (s ∪ sub))
          | _, _ => none)
        (some ∅)

/-! ## Helper lemmas for the autouse cascade -/

theorem cascadeStep_mono (keys : List String) (dep : String → List String)
    (st : String → Bool) (f y : String) (h : st y = true) :
    cascadeStep keys dep st f y = true := by
  unfold cascadeStep
  split
  · by_cases hy : y = f <;> simp [hy, h]
  · exact h

theorem cascadeFold_mono (keys : List String) (dep : String → List String)
    (l : List String) (st : String → Bool) (y : String) (h : st y = true) :
    (l.foldl (cascadeStep keys dep) st) y = true := by
  induction l generalizing st with
  | nil => exact h
  | cons f ls ih => exact ih _ (cascadeStep_mono keys dep st f y h)

theorem cascadeFold_sound (keys : List String) (dep : String → List String)
    (declared : String → Bool)
    (htrans : ∀ k ∈ keys, ∀ j ∈ keys, j ∈ dep k → ∀ y ∈ dep j, y ∈ dep k)
    (l : List String) (st : String → Bool)
    (hst : ∀ y, st y = true →
      declared y = true ∨ ∃ k ∈ keys, declared k = true ∧ y ∈ dep k) :
    ∀ y, (l.foldl (cascadeStep keys dep) st) y = true →
      declared y = true ∨ ∃ k ∈ keys, declared k = true ∧ y ∈ dep k := by
  induction l generalizing st with
  | nil => exact hst
  | cons f ls ih =>
    apply ih
    intro y hy
    unfold cascadeStep at hy
    split at hy
    · rename_i hcond
      by_cases hyf : y = f
      · subst hyf
        rw [List.any_eq_true] at hcond
        obtain ⟨k, hk, hkprop⟩ := hcond
        rw [Bool.and_eq_true] at hkprop
        obtain ⟨hstk, hcont⟩ := hkprop
        have hydep : y ∈ dep k := List.elem_iff.mp hcont
        rcases hst k hstk with hdk | ⟨j, hj, hdj, hjdep⟩
        · exact Or.inr ⟨k, hk, hdk, hydep⟩
        · exact Or.inr ⟨j, hj, hdj, htrans j hj k hk hjdep y hydep⟩
      · simp only [hyf, if_false] at hy
        exact hst y hy
    · exact hst y hy

theorem cascadeFold_complete (keys : List String) (dep : String → List String)
    (declared : String → Bool) (x : String)
    (hex : ∃ k ∈ keys, declared k = true ∧ x ∈ dep k) :
    ∀ (l : List String) (st : String → Bool),
      (∀ y, declared y = true → st y = true) → x ∈ l →
      (l.foldl (cascadeStep keys dep) st) x = true := by
  intro l
  induction l with
  | nil => intro st _ hx; cases hx
  | cons f ls ih =>
    intro st hst hx
    rcases List.mem_cons.mp hx with hxf | hxl
    · subst hxf
      have hcond : (keys.any (fun k => st k && (dep k).contains x)) = true := by
        rw [List.any_eq_true]
        obtain ⟨k, hk, hdk, hdep⟩ := hex
        refine ⟨k, hk, ?_⟩
        rw [Bool.and_eq_true]
        exact ⟨hst k hdk, List.elem_iff.mpr hdep⟩
      have hset : (cascadeStep keys dep st x) x = true := by
        unfold cascadeStep
        rw [if_pos hcond]
        simp
      exact cascadeFold_mono keys dep ls _ x hset
    · exact ih _ (fun y hy => cascadeStep_mono keys dep st f y (hst y hy)) hxl

/-! ## Claim theorems (outcome classification, parameter resolution, chains) -/

/-- C6: every failure report in the call phase carrying the expected-failure
marker is classified XPassed (not Failed); a call-phase failure without the
marker is classified Failed; a failure in any non-call phase is classified
Error. -/
theorem append_failed_classification (wh : Option String) (wasxfail : Bool) :
    (wh = some "call" → wasxfail = true → append_failed wh wasxfail = Outcome.xpassed) ∧
    (wh = some "call" → wasxfail = false → append_failed wh wasxfail = Outcome.failed) ∧
    (wh ≠ some "call" → append_failed wh wasxfail = Outcome.error) :=
  ⟨fun h1 h2 => by simp [append_failed, h1, h2],
   fun h1 h2 => by simp [append_failed, h1, h2],
   fun h1 => by simp [append_failed, h1]⟩

/-- Witness for C6 at concrete phases and marker values. -/
theorem append_failed_classification_witness :
    append_failed (some "call") true = Outcome.xpassed ∧
    append_failed (some "call") false = Outcome.failed ∧
    append_failed (some "setup") true = Outcome.error :=
  ⟨(append_failed_classification (some "call") true).1 rfl rfl,
   (append_failed_classification (some "call") false).2.1 rfl rfl,
   (append_failed_classification (some "setup") true).2.2 (by decide)⟩

/-- C10: a fixture whose name has no entry in the callspec indices resolves
its `param_index` to 0, and a parameterized fixture then reports its first
parameter value. -/
theorem param_index_defaults_to_zero {α : Type} (indices : List (String × Nat))
    (argname : String) (fd : FixtureDefM α) (v : α) (rest : List α)
    (hmiss : indices.lookup argname = none) (hparams : fd.params = v :: rest) :
    resolve_param_index indices argname = 0 ∧
    pfsi_value fd (some (resolve_param_index indices argname)) = PyResult.ok v := by
  have h0 : resolve_param_index indices argname = 0 := by
    simp [resolve_param_index, hmiss]
  refine ⟨h0, ?_⟩
  rw [h0]
  simp [pfsi_value, hparams]

/-- Witness for C10: the name `f` is absent from a concrete callspec index
map, and the fixture `exFixA` (params `[10, 20]`) reports value 10. -/
theorem param_index_defaults_to_zero_witness :
    resolve_param_index [("g", 1)] "f" = 0 ∧
    pfsi_value exFixA (some (resolve_param_index [("g", 1)] "f")) = PyResult.ok 10 :=
  param_index_defaults_to_zero [("g", 1)] "f" exFixA 10 [20] (by decide) rfl

/-- C5 counterexample: two descriptors built from field-wise identical but
distinct live fixture definitions (`exFixA`, `exFixB` differ only in object
identity) agree on all four claimed fields — fixture name, description,
param_index, base id — yet `ParameterizedFixtureStateInfo.__eq__` compares
them unequal, because it compares the live `fixture_def` objects by identity. -/
theorem pfsi_eq_identity_counterexample :
    exFixA.argname = exFixB.argname ∧
    exFixA.baseid = exFixB.baseid ∧
    description exFixA (some 0) = description exFixB (some 0) ∧
    pfsiBeq ⟨exFixA, some 0⟩ ⟨exFixB, some 0⟩ = false := by
  decide

/-- C5 amended: two descriptors are equal iff their underlying live fixture
definitions are the same object and their `param_index` are equal — equality
does depend on the identity of the live fixture. -/
theorem pfsi_eq_characterization {α : Type} (a b : ParameterizedFixtureStateInfo α) :
    pfsiBeq a b = true ↔
      (a.fixture_def.objId = b.fixture_def.objId ∧ a.param_index = b.param_index) := by
  simp [pfsiBeq]

/-- C3 counterexample: fixture `b` is declared `autouse=False`, but the
cascade turns its effective autouse flag true because the autouse fixture `a`
depends on it. -/
theorem autouse_cascade_flips_declared_false :
    exDeclared "b" = false ∧ cascadeAutouse exKeys exDep exDeclared "b" = true := by
  decide

/-- C3 amended: for transitively-closed dependency sets (as produced by
`get_fixture_dependancies`), a fixture's effective autouse after the cascade
is true iff it was declared autouse or some active fixture declared autouse
depends on it; in particular a declared `autouse=False` fixture on which no
declared-autouse fixture depends stays false, and one on which such a fixture
depends becomes true. -/
theorem cascade_autouse_characterization (keys : List String)
    (dep : String → List String) (declared : String → Bool) (x : String)
    (hx : x ∈ keys)
    (htrans : ∀ k ∈ keys, ∀ j ∈ keys, j ∈ dep k → ∀ y ∈ dep j, y ∈ dep k) :
    cascadeAutouse keys dep declared x =
      (declared x || keys.any (fun k => declared k && (dep k).contains x)) := by
  by_cases hL : cascadeAutouse keys dep declared x = true
  · rw [hL]
    rcases cascadeFold_sound keys dep declared htrans keys declared
        (fun _ h => Or.inl h) x hL with hd | ⟨k, hk, hdk, hdep⟩
    · simp [hd]
    · symm
      rw [Bool.or_eq_true, List.any_eq_true]
      exact Or.inr ⟨k, hk, by rw [Bool.and_eq_true]; exact ⟨hdk, List.elem_iff.mpr hdep⟩⟩
  · have hLf : cascadeAutouse keys dep declared x = false := by
      cases h : cascadeAutouse keys dep declared x
      · rfl
      · exact absurd h hL
    rw [hLf]
    symm
    by_contra hR
    have hR' : (declared x || keys.any (fun k => declared k && (dep k).contains x)) = true := by
      cases h : (declared x || keys.any (fun k => declared k && (dep k).contains x))
      · exact absurd h hR
      · rfl
    rw [Bool.or_eq_true] at hR'
    rcases hR' with hd | hany
    · exact hL (cascadeFold_mono keys dep keys declared x hd)
    · rw [List.any_eq_true] at hany
      obtain ⟨k, hk, hkp⟩ := hany
      rw [Bool.and_eq_true] at hkp
      exact hL (cascadeFold_complete keys dep declared x
        ⟨k, hk, hkp.1, List.elem_iff.mp hkp.2⟩ keys declared (fun _ h => h) hx)

/-- Witness for C3's amended theorem on the concrete two-fixture scenario. -/
theorem cascade_autouse_characterization_witness :
    ("b" ∈ exKeys) ∧
    cascadeAutouse exKeys exDep exDeclared "b" =
      (exDeclared "b" || exKeys.any (fun k => exDeclared k && (exDep k).contains "b")) :=
  ⟨by decide,
   cascade_autouse_characterization exKeys exDep exDeclared "b" (by decide) (by decide)⟩

/-- C2: at the failing input — a module-scoped parameterized autouse fixture
declared inside class `TestC` of module `tests.test_x` (base id
`tests/test_x.py::TestC`), on the test `tests/test_x.py::TestC::test_m`
(chain length 4) — the code attaches at index 1 (the module), because it
measures the fixture's depth by splitting the base id on `/` only (so the
`::TestC` component is not counted), while the documented rule attaches at
index 2 (the class), `test-chain length − 2`, since the fixture's base-id
chain (depth 3) lies below the module (depth 2). -/
theorem module_scope_index_divergence :
    module_scope_index "tests.test_x" "tests/test_x.py::TestC" = 1 ∧
    module_scope_index_spec "tests.test_x" "tests/test_x.py::TestC"
      (get_simplified_chain "tests/test_x.py::TestC::test_m").length = 2 ∧
    (get_simplified_chain "tests/test_x.py::TestC").length = 3 ∧
    (1 : Nat) ≠ 2 := by
  decide

/-- C4 counterexample: the chain the code derives for
`tests/test_x.py::TestC::test_m[1]` is not the claimed
`["tests","test_x","TestC","test_m[1]"]` — the module segment keeps its
`.py` suffix and the parameter suffix is stripped from the last segment. -/
theorem chain_scenario_counterexample :
    get_simplified_chain "tests/test_x.py::TestC::test_m[1]" ≠
      ["tests", "test_x", "TestC", "test_m[1]"] := by
  decide

/-- C4 amended: the derived chain for `tests/test_x.py::TestC::test_m[1]` is
`["tests","test_x.py","TestC","test_m"]`, and processing that test (no
parameterized fixtures) produces exactly the three-level branch path
`tests` → `test_x.py` → `TestC`, every branch node carrying an empty
parameter set, with a single leaf result carrying no parameter descriptors
attached to the `TestC` node (and to no other node). -/
theorem chain_scenario_amended :
    get_simplified_chain "tests/test_x.py::TestC::test_m[1]" =
      ["tests", "test_x.py", "TestC", "test_m"] ∧
    ((appendEvent initState scenarioEvent).nodes.map (fun n => n.key.name) =
      ["tests", "test_x.py", "TestC"]) ∧
    ((appendEvent initState scenarioEvent).nodes.all
      (fun n => n.key.params.isEmpty)) = true ∧
    ((appendEvent initState scenarioEvent).nodes.map (fun n => n.children.map NodeKey.name) =
      [["test_x.py"], ["TestC"], []]) ∧
    ((appendEvent initState scenarioEvent).results.map NodeKey.name = ["tests"]) ∧
    ((appendEvent initState scenarioEvent).nodes.map
      (fun n => n.test_results.map (fun t => (t.name, t.params))) =
      [[], [], [("test_m", [])]]) := by
  decide

/-- C8 counterexample: for a parameterized fixture whose declared ids list is
shorter than the parameter index (`exIdsShort`: two params, one id), computing
the description at index 1 raises `IndexError` (only `TypeError` is caught),
rather than falling back to the parameter value 20. -/
theorem description_short_ids_raises :
    exIdsShort.params[1]? = some 20 ∧
    description exIdsShort (some 1) = PyResult.raised PyErr.indexError ∧
    PyResult.raised PyErr.indexError ≠ PyResult.ok 20 := by
  decide

/-- C8 amended: the fallback to the parameter value happens exactly for
`TypeError` failures — a callable ids raising `TypeError` falls back to the
parameter value — while an ids list shorter than the parameter index raises
`IndexError` (aborting report generation), and a callable raising any other
exception propagates it. -/
theorem description_fallback_characterization {α : Type} (fd : FixtureDefM α)
    (idx : Nat) (v : α) (hv : fd.params[idx]? = some v) :
    (∀ xs, fd.ids = some (IdsDecl.pylist xs) → xs ≠ [] → xs.length ≤ idx →
      description fd (some idx) = PyResult.raised PyErr.indexError) ∧
    (∀ f, fd.ids = some (IdsDecl.pycallable f) → f v = Except.error PyErr.typeError →
      description fd (some idx) = PyResult.ok v) ∧
    (∀ f e, fd.ids = some (IdsDecl.pycallable f) → f v = Except.error e →
      e ≠ PyErr.typeError → description fd (some idx) = PyResult.raised e) := by
  refine ⟨?_, ?_, ?_⟩
  · intro xs hids hne hlen
    have hnone : xs[idx]? = none := List.getElem?_eq_none hlen
    simp [description, hids, idsTruthy, hne, hnone]
  · intro f hids hf
    simp [description, hids, idsTruthy, hv, hf]
  · intro f e hids hf hne
    cases e with
    | typeError => exact absurd rfl hne
    | indexError => simp [description, hids, idsTruthy, hv, hf]
    | otherError => simp [description, hids, idsTruthy, hv, hf]

/-- Witness for C8's amended theorem at the concrete mismatched-ids fixture. -/
theorem description_fallback_characterization_witness :
    exIdsShort.params[1]? = some 20 ∧
    (∀ xs, exIdsShort.ids = some (IdsDecl.pylist xs) → xs ≠ [] → xs.length ≤ 1 →
      description exIdsShort (some 1) = PyResult.raised PyErr.indexError) ∧
    (∀ f, exIdsShort.ids = some (IdsDecl.pycallable f) →
      f 20 = Except.error PyErr.typeError →
      description exIdsShort (some 1) = PyResult.ok 20) ∧
    (∀ f e, exIdsShort.ids = some (IdsDecl.pycallable f) → f 20 = Except.error e →
      e ≠ PyErr.typeError → description exIdsShort (some 1) = PyResult.raised e) :=
  ⟨by decide, description_fallback_characterization exIdsShort 1 20 (by decide)⟩

/-- C9: `get_fixture_dependancies` has no cycle guard — on the cyclic mapping
`a → b → a` no recursion depth whatsoever produces a result (the Python
original recurses until the interpreter kills it, rather than failing fast
with a descriptive error) — while on an acyclic mapping it does terminate
with the transitive union of direct argument names. -/
theorem fixture_dependancies_cycle_diverges :
    (∀ fuel : Nat,
      get_fixture_dependancies fuel "a" [("a", ["b"]), ("b", ["a"])] = none ∧
      get_fixture_dependancies fuel "b" [("a", ["b"]), ("b", ["a"])] = none) ∧
    get_fixture_dependancies 3 "a" [("a", ["b"]), ("b", ["c"])] = some {"b", "c"} := by
  constructor
  · intro n
    induction n with
    | zero => exact ⟨rfl, rfl⟩
    | succ m ih =>
      have ha : List.lookup "a" [("a", ["b"]), ("b", ["a"])] = some ["b"] := by rfl
      have hb : List.lookup "b" [("a", ["b"]), ("b", ["a"])] = some ["a"] := by rfl
      constructor
      · simp [get_fixture_dependancies, ha, ih.2]
      · simp [get_fixture_dependancies, hb, ih.1]
  · decide

/-! ## Helper lemmas for node interning -/

theorem nodeNew_snd_eq_or_append (s : List NodeKey) (j : NodeKey) :
    (nodeNew s j).2 = s ∨ (nodeNew s j).2 = s ++ [j] := by
  unfold nodeNew
  split
  · exact Or.inl rfl
  · exact Or.inr rfl

theorem foldl_nodeNew_append (others : List NodeKey) (s : List NodeKey) :
    ∃ t, others.foldl (fun a j => (nodeNew a j).2) s = s ++ t := by
  induction others generalizing s with
  | nil => exact ⟨[], by simp⟩
  | cons j js ih =>
    obtain ⟨t, ht⟩ := ih ((nodeNew s j).2)
    rw [List.foldl_cons, ht]
    rcases nodeNew_snd_eq_or_append s j with h | h
    · rw [h]; exact ⟨t, rfl⟩
    · rw [h]; exact ⟨[j] ++ t, by simp⟩

theorem nodeNew_nodup (s : List NodeKey) (j : NodeKey) (h : s.Nodup) :
    (nodeNew s j).2.Nodup := by
  unfold nodeNew
  split
  · simpa
  · rename_i hmem
    simp [List.nodup_append, h, hmem]

theorem foldl_nodeNew_nodup (others : List NodeKey) (s : List NodeKey)
    (h : s.Nodup) : (others.foldl (fun a j => (nodeNew a j).2) s).Nodup := by
  induction others generalizing s with
  | nil => exact h
  | cons j js ih => exact ih _ (nodeNew_nodup s j h)

/-- C1: the interning contract of `Node.__new__`. Starting from a duplicate-free
instance registry, construct a node with key `k` (this is what the first test
does at chain index `i`); after any further constructions whatsoever (the
remaining chain of the first test, then a second test's chain up to the same
index), constructing `k` again returns the exact same instance — the same
index in the registry — and the registry never holds two equal keys, i.e.
every (name, namespace, ordered parameter-set, parent) combination resolves
to at most one Node instance within one report. -/
theorem node_interning_unique (start : List NodeKey) (k : NodeKey)
    (others : List NodeKey) (hnodup : start.Nodup) :
    ((nodeNew (others.foldl (fun s j => (nodeNew s j).2) (nodeNew start k).2) k).1 =
      (nodeNew start k).1) ∧
    (others.foldl (fun s j => (nodeNew s j).2) (nodeNew start k).2).Nodup := by
  obtain ⟨t, ht⟩ := foldl_nodeNew_append others (nodeNew start k).2
  refine ⟨?_, foldl_nodeNew_nodup others _ (nodeNew_nodup start k hnodup)⟩
  by_cases hk : k ∈ start
  · have h2 : (nodeNew start k).2 = start := by unfold nodeNew; rw [if_pos hk]
    have h1 : (nodeNew start k).1 = start.indexOf k := by unfold nodeNew; rw [if_pos hk]
    rw [h2] at ht
    rw [h2, ht, h1]
    have hkmem : k ∈ start ++ t := List.mem_append_left _ hk
    unfold nodeNew
    rw [if_pos hkmem]
    exact List.indexOf_append_of_mem hk
  · have h2 : (nodeNew start k).2 = start ++ [k] := by unfold nodeNew; rw [if_neg hk]
    have h1 : (nodeNew start k).1 = start.length := by unfold nodeNew; rw [if_neg hk]
    rw [h2] at ht
    rw [h2, ht, h1]
    have hk1 : k ∈ start ++ [k] := List.mem_append_right _ (List.mem_singleton_self k)
    have hkmem : k ∈ (start ++ [k]) ++ t := List.mem_append_left _ hk1
    unfold nodeNew
    rw [if_pos hkmem]
    rw [List.indexOf_append_of_mem hk1, List.indexOf_append_of_not_mem hk]
    simp

/-- Witness for C1: a concrete run — intern the root node `tests` into an
empty registry, then a child node, then `tests` again: the second
construction returns index 0, the same instance, and the registry stays
duplicate-free. -/
theorem node_interning_unique_witness :
    ((nodeNew ([NodeKey.child "TestC" "tests.TestC" []
          (NodeKey.root "tests" "tests" [])].foldl
        (fun s j => (nodeNew s j).2)
        (nodeNew [] (NodeKey.root "tests" "tests" [])).2)
        (NodeKey.root "tests" "tests" [])).1 =
      (nodeNew [] (NodeKey.root "tests" "tests" [])).1) ∧
    ([NodeKey.child "TestC" "tests.TestC" []
          (NodeKey.root "tests" "tests" [])].foldl
        (fun s j => (nodeNew s j).2)
        (nodeNew [] (NodeKey.root "tests" "tests" [])).2).Nodup :=
  node_interning_unique [] (NodeKey.root "tests" "tests" [])
    [NodeKey.child "TestC" "tests.TestC" [] (NodeKey.root "tests" "tests" [])]
    (by simp)

/-! ## Accessor lemmas for the primitive node-list operations -/

theorem findNodeL_append (ns ms : List NodeRec) (k : NodeKey) :
    findNodeL (ns ++ ms) k = (findNodeL ns k).or (findNodeL ms k) := by
  simp [findNodeL, List.find?_append]

theorem findNodeL_mapUpdate (k : NodeKey) (g : NodeRec → NodeRec)
    (hg : ∀ n, (g n).key = n.key) (nodes : List NodeRec) (k' : NodeKey) :
    findNodeL (nodes.map (fun n => if n.key == k then g n else n)) k' =
      if k' = k then (findNodeL nodes k).map g else findNodeL nodes k' := by
  induction nodes with
  | nil => by_cases h : k' = k <;> simp [findNodeL, h]
  | cons n ns ih =>
    simp only [findNodeL] at ih ⊢
    simp only [List.map_cons, List.find?_cons]
    by_cases hnk : n.key = k
    · have e1 : (if (n.key == k) = true then g n else n) = g n :=
        if_pos (beq_iff_eq.mpr hnk)
      rw [e1]
      by_cases hk' : k' = k
      · subst hk'
        have e2 : ((g n).key == k') = true := by
          rw [hg n]; exact beq_iff_eq.mpr hnk
        have e3 : (n.key == k') = true := beq_iff_eq.mpr hnk
        simp [e2, e3]
      · have e2 : ((g n).key == k') = false := by
          rw [hg n, hnk]; exact beq_eq_false_iff_ne.mpr (fun h => hk' h.symm)
        have e3 : (n.key == k') = false := by
          rw [hnk]; exact beq_eq_false_iff_ne.mpr (fun h => hk' h.symm)
        simp only [e2, e3, if_neg hk'] at ih ⊢
        exact ih
    · have e1 : (if (n.key == k) = true then g n else n) = n :=
        if_neg (by simpa using hnk)
      rw [e1]
      by_cases hnk' : n.key = k'
      · have e3 : (n.key == k') = true := beq_iff_eq.mpr hnk'
        have hk' : ¬ k' = k := fun h => hnk (by rw [hnk', h])
        simp only [e3, if_neg hk']
      · have e3 : (n.key == k') = false := beq_eq_false_iff_ne.mpr hnk'
        by_cases hk' : k' = k
        · subst hk'
          have e4 : (n.key == k') = false := beq_eq_false_iff_ne.mpr hnk'
          simp only [e4, if_pos rfl] at ih ⊢
          exact ih
        · simp only [e3, if_neg hk'] at ih ⊢
          exact ih

theorem memL_iff_exists (nodes : List NodeRec) (k : NodeKey) :
    memL nodes k = true ↔ ∃ n ∈ nodes, n.key = k := by
  rw [memL, findNodeL, List.find?_isSome]
  simp

theorem internNode_of_mem (nodes : List NodeRec) (k : NodeKey)
    (h : memL nodes k = true) : internNode nodes k = nodes := by
  unfold internNode
  rw [if_pos]
  rw [List.any_eq_true]
  obtain ⟨n, hn, hk⟩ := (memL_iff_exists nodes k).mp h
  exact ⟨n, hn, beq_iff_eq.mpr hk⟩

theorem findNodeL_internNode_self (nodes : List NodeRec) (k : NodeKey) :
    findNodeL (internNode nodes k) k =
      some ((findNodeL nodes k).getD (freshNode k)) := by
  unfold internNode
  split
  · rename_i hany
    rw [List.any_eq_true] at hany
    obtain ⟨n, hn, hk⟩ := hany
    have : (findNodeL nodes k).isSome := by
      rw [findNodeL, List.find?_isSome]
      exact ⟨n, hn, hk⟩
    obtain ⟨m, hm⟩ := Option.isSome_iff_exists.mp this
    rw [hm]
    rfl
  · rename_i hany
    have hnone : findNodeL nodes k = none := by
      rw [findNodeL, List.find?_eq_none]
      intro n hn
      by_contra hc
      exact hany (List.any_eq_true.mpr ⟨n, hn, by simpa using hc⟩)
    rw [findNodeL_append, hnone]
    simp [findNodeL, freshNode]

theorem findNodeL_internNode_other (nodes : List NodeRec) (k k' : NodeKey)
    (h : k' ≠ k) : findNodeL (internNode nodes k) k' = findNodeL nodes k' := by
  unfold internNode
  split
  · rfl
  · rw [findNodeL_append]
    have h2 : findNodeL [freshNode k] k' = none := by
      simp [findNodeL, freshNode, Ne.symm h]
    rw [h2]
    cases findNodeL nodes k' <;> rfl

theorem memL_internNode (nodes : List NodeRec) (k k' : NodeKey) :
    memL (internNode nodes k) k' = true ↔ memL nodes k' = true ∨ k' = k := by
  by_cases h : k' = k
  · subst h
    rw [memL, findNodeL_internNode_self]
    simp
  · rw [memL, findNodeL_internNode_other nodes k k' h]
    simp [memL, h]

theorem memL_internNode_self (nodes : List NodeRec) (k : NodeKey) :
    memL (internNode nodes k) k = true := by
  rw [memL, findNodeL_internNode_self]
  rfl

theorem Summary.get_zero (o : Outcome) : Summary.zero.get o = 0 := by
  cases o <;> rfl

theorem Summary.get_bump (s : Summary) (o o' : Outcome) :
    (s.bump o).get o' = s.get o' + (if o' = o then 1 else 0) := by
  cases o <;> cases o' <;> simp [Summary.bump, Summary.get]

theorem findNodeL_bumpNode (nodes : List NodeRec) (k : NodeKey) (o : Outcome)
    (d : Rat) (k' : NodeKey) :
    findNodeL (bumpNode nodes k o d) k' =
      if k' = k then (findNodeL nodes k).map
        (fun n =>
          { n with summary := n.summary.bump o, duration := floatAdd n.duration d })
      else findNodeL nodes k' := by
  unfold bumpNode
  refine findNodeL_mapUpdate _ _ ?_ _ _
  intro n
  rfl

theorem findNodeL_addChild (nodes : List NodeRec) (p c k' : NodeKey) :
    findNodeL (addChild nodes p c) k' =
      if k' = p then (findNodeL nodes p).map
        (fun n => if n.children.contains c then n
                  else { n with children := n.children ++ [c] })
      else findNodeL nodes k' := by
  unfold addChild
  refine findNodeL_mapUpdate _ _ ?_ _ _
  intro n
  split <;> rfl

theorem findNodeL_addLeaf (nodes : List NodeRec) (k : NodeKey) (leaf : Leaf)
    (k' : NodeKey) :
    findNodeL (addLeaf nodes k leaf) k' =
      if k' = k then (findNodeL nodes k).map
        (fun n => { n with test_results := n.test_results ++ [leaf] })
      else findNodeL nodes k' := by
  unfold addLeaf
  refine findNodeL_mapUpdate _ _ ?_ _ _
  intro n
  rfl

theorem summaryL_of_preserve (k : NodeKey) (g : NodeRec → NodeRec)
    (hg : ∀ n, (g n).key = n.key) (hs : ∀ n, (g n).summary = n.summary)
    (nodes : List NodeRec) (k' : NodeKey) (o' : Outcome) :
    summaryL (nodes.map (fun n => if n.key == k then g n else n)) k' o' =
      summaryL nodes k' o' := by
  rw [summaryL, findNodeL_mapUpdate k g hg]
  by_cases h : k' = k
  · subst h
    rw [if_pos rfl]
    cases hf : findNodeL nodes k' <;> simp [summaryL, hf, hs]
  · rw [if_neg h]
    rfl

theorem childrenL_of_preserve (k : NodeKey) (g : NodeRec → NodeRec)
    (hg : ∀ n, (g n).key = n.key) (hs : ∀ n, (g n).children = n.children)
    (nodes : List NodeRec) (k' : NodeKey) :
    childrenL (nodes.map (fun n => if n.key == k then g n else n)) k' =
      childrenL nodes k' := by
  rw [childrenL, findNodeL_mapUpdate k g hg]
  by_cases h : k' = k
  · subst h
    rw [if_pos rfl]
    cases hf : findNodeL nodes k' <;> simp [childrenL, hf, hs]
  · rw [if_neg h]
    rfl

theorem memL_of_update (k : NodeKey) (g : NodeRec → NodeRec)
    (hg : ∀ n, (g n).key = n.key) (nodes : List NodeRec) (k' : NodeKey) :
    memL (nodes.map (fun n => if n.key == k then g n else n)) k' =
      memL nodes k' := by
  rw [memL, findNodeL_mapUpdate k g hg]
  by_cases h : k' = k
  · subst h
    rw [if_pos rfl]
    cases hf : findNodeL nodes k' <;> simp [memL, hf]
  · rw [if_neg h]
    rfl

theorem summaryL_internNode (nodes : List NodeRec) (k k' : NodeKey) (o : Outcome) :
    summaryL (internNode nodes k) k' o = summaryL nodes k' o := by
  by_cases h : k' = k
  · subst h
    rw [summaryL, findNodeL_internNode_self]
    cases hf : findNodeL nodes k' <;>
      simp [summaryL, hf, freshNode, Summary.get_zero]
  · simp [summaryL, findNodeL_internNode_other nodes k k' h]

theorem childrenL_internNode (nodes : List NodeRec) (k k' : NodeKey) :
    childrenL (internNode nodes k) k' = childrenL nodes k' := by
  by_cases h : k' = k
  · subst h
    rw [childrenL, findNodeL_internNode_self]
    cases hf : findNodeL nodes k' <;> simp [childrenL, hf, freshNode]
  · simp [childrenL, findNodeL_internNode_other nodes k k' h]

theorem summaryL_bumpNode_other (nodes : List NodeRec) (k : NodeKey)
    (o : Outcome) (d : Rat) (k' : NodeKey) (o' : Outcome) (h : k' ≠ k) :
    summaryL (bumpNode nodes k o d) k' o' = summaryL nodes k' o' := by
  rw [summaryL, findNodeL_bumpNode, if_neg h]
  rfl

theorem summaryL_bumpNode_self (nodes : List NodeRec) (k : NodeKey)
    (o : Outcome) (d : Rat) (o' : Outcome) (h : memL nodes k = true) :
    summaryL (bumpNode nodes k o d) k o' =
      summaryL nodes k o' + (if o' = o then 1 else 0) := by
  obtain ⟨n, hn⟩ := Option.isSome_iff_exists.mp h
  rw [summaryL, findNodeL_bumpNode, if_pos rfl, hn]
  simp [summaryL, hn, Summary.get_bump]

theorem childrenL_bumpNode (nodes : List NodeRec) (k : NodeKey) (o : Outcome)
    (d : Rat) (k' : NodeKey) :
    childrenL (bumpNode nodes k o d) k' = childrenL nodes k' := by
  unfold bumpNode
  refine childrenL_of_preserve _ _ ?_ ?_ _ _ <;> intro n <;> rfl

theorem memL_bumpNode (nodes : List NodeRec) (k : NodeKey) (o : Outcome)
    (d : Rat) (k' : NodeKey) :
    memL (bumpNode nodes k o d) k' = memL nodes k' := by
  unfold bumpNode
  refine memL_of_update _ _ ?_ _ _
  intro n
  rfl

theorem summaryL_addChild (nodes : List NodeRec) (p c k' : NodeKey) (o' : Outcome) :
    summaryL (addChild nodes p c) k' o' = summaryL nodes k' o' := by
  unfold addChild
  refine summaryL_of_preserve _ _ ?_ ?_ _ _ _ <;> intro n <;> split <;> rfl

theorem memL_addChild (nodes : List NodeRec) (p c k' : NodeKey) :
    memL (addChild nodes p c) k' = memL nodes k' := by
  unfold addChild
  refine memL_of_update _ _ ?_ _ _
  intro n
  split <;> rfl

theorem childrenL_addChild_other (nodes : List NodeRec) (p c k' : NodeKey)
    (h : k' ≠ p) : childrenL (addChild nodes p c) k' = childrenL nodes k' := by
  rw [childrenL, findNodeL_addChild, if_neg h]
  rfl

theorem mem_childrenL_addChild (nodes : List NodeRec) (p c c' : NodeKey) :
    c' ∈ childrenL (addChild nodes p c) p ↔
      c' ∈ childrenL nodes p ∨ (c' = c ∧ memL nodes p = true) := by
  rw [childrenL, findNodeL_addChild, if_pos rfl]
  cases hf : findNodeL nodes p with
  | none => simp [childrenL, hf, memL]
  | some n =>
    simp only [Option.map_some']
    split
    · rename_i hcontains
      have hc : c ∈ n.children := List.elem_iff.mp hcontains
      simp only [childrenL, hf, memL, hf, Option.isSome_some]
      constructor
      · exact fun h => Or.inl h
      · rintro (h | ⟨rfl, _⟩)
        · exact h
        · exact hc
    · simp only [childrenL, hf, memL, Option.isSome_some]
      constructor
      · intro h
        rcases List.mem_append.mp h with h | h
        · exact Or.inl h
        · exact Or.inr ⟨List.mem_singleton.mp h, trivial⟩
      · rintro (h | ⟨rfl, _⟩)
        · exact List.mem_append_left _ h
        · exact List.mem_append_right _ (List.mem_singleton_self _)

theorem summaryL_addLeaf (nodes : List NodeRec) (k : NodeKey) (leaf : Leaf)
    (k' : NodeKey) (o' : Outcome) :
    summaryL (addLeaf nodes k leaf) k' o' = summaryL nodes k' o' := by
  unfold addLeaf
  refine summaryL_of_preserve _ _ ?_ ?_ _ _ _ <;> intro n <;> rfl

theorem childrenL_addLeaf (nodes : List NodeRec) (k : NodeKey) (leaf : Leaf)
    (k' : NodeKey) :
    childrenL (addLeaf nodes k leaf) k' = childrenL nodes k' := by
  unfold addLeaf
  refine childrenL_of_preserve _ _ ?_ ?_ _ _ <;> intro n <;> rfl

theorem memL_addLeaf (nodes : List NodeRec) (k : NodeKey) (leaf : Leaf)
    (k' : NodeKey) :
    memL (addLeaf nodes k leaf) k' = memL nodes k' := by
  unfold addLeaf
  refine memL_of_update _ _ ?_ _ _
  intro n
  rfl

/-! ## Effect of one chain entry (`processBranch`) on the report state -/

theorem extendKey_ne_parent (p : NodeKey) (link : Link) :
    extendKey (some p) link ≠ p := by
  intro h
  have hd : (extendKey (some p) link).depth = p.depth := by rw [h]
  simp [extendKey, NodeKey.depth] at hd

theorem processBranch_snd (st : ReportState) (parent : Option NodeKey)
    (o : Outcome) (d : Rat) (link : Link) :
    (processBranch st parent o d link).2 = extendKey parent link := rfl

theorem processBranch_session (st : ReportState) (parent : Option NodeKey)
    (o : Outcome) (d : Rat) (link : Link) :
    (processBranch st parent o d link).1.summary = st.summary := rfl

theorem processBranch_summaryL (st : ReportState) (parent : Option NodeKey)
    (o : Outcome) (d : Rat) (link : Link) (k' : NodeKey) (o' : Outcome) :
    nodeSummary (processBranch st parent o d link).1 k' o' =
      nodeSummary st k' o' +
        (if k' = extendKey parent link ∧ o' = o then 1 else 0) := by
  unfold processBranch nodeSummary
  dsimp only
  cases parent with
  | none =>
    by_cases h : k' = extendKey none link
    · subst h
      rw [summaryL_bumpNode_self _ _ _ _ _ (memL_internNode_self _ _),
        summaryL_internNode]
      simp
    · rw [summaryL_bumpNode_other _ _ _ _ _ _ h, summaryL_internNode]
      simp [h]
  | some p =>
    by_cases h : k' = extendKey (some p) link
    · subst h
      rw [summaryL_bumpNode_self, summaryL_addChild, summaryL_internNode]
      · simp
      · rw [memL_addChild]
        exact memL_internNode_self _ _
    · rw [summaryL_bumpNode_other _ _ _ _ _ _ h, summaryL_addChild,
        summaryL_internNode]
      simp [h]

theorem processBranch_memL (st : ReportState) (parent : Option NodeKey)
    (o : Outcome) (d : Rat) (link : Link) (k' : NodeKey) :
    nodeMem (processBranch st parent o d link).1 k' = true ↔
      nodeMem st k' = true ∨ k' = extendKey parent link := by
  unfold processBranch nodeMem
  dsimp only
  cases parent with
  | none => rw [memL_bumpNode, memL_internNode]
  | some p => rw [memL_bumpNode, memL_addChild, memL_internNode]

theorem processBranch_children (st : ReportState) (parent : Option NodeKey)
    (o : Outcome) (d : Rat) (link : Link) (p' c' : NodeKey)
    (hok : ∀ p, parent = some p → nodeMem st p = true) :
    c' ∈ nodeChildren (processBranch st parent o d link).1 p' ↔
      c' ∈ nodeChildren st p' ∨
        (parent = some p' ∧ c' = extendKey parent link) := by
  unfold processBranch nodeChildren
  dsimp only
  cases parent with
  | none =>
    rw [childrenL_bumpNode, childrenL_internNode]
    simp
  | some p =>
    rw [childrenL_bumpNode]
    by_cases h : p' = p
    · subst h
      rw [mem_childrenL_addChild, childrenL_internNode]
      have hp : memL (internNode st.nodes (extendKey (some p') link)) p' = true := by
        rw [memL_internNode]
        exact Or.inl (hok p' rfl)
      simp [hp]
    · rw [childrenL_addChild_other _ _ _ _ h, childrenL_internNode]
      simp [show ¬ (p = p') from fun hh => h hh.symm]

theorem processBranch_results (st : ReportState) (parent : Option NodeKey)
    (o : Outcome) (d : Rat) (link : Link) (k' : NodeKey) :
    k' ∈ (processBranch st parent o d link).1.results ↔
      k' ∈ st.results ∨ (parent = none ∧ k' = extendKey parent link) := by
  cases parent with
  | some p => simp [processBranch]
  | none =>
    show k' ∈ (if st.results.contains (extendKey none link) = true then st.results
        else st.results ++ [extendKey none link]) ↔
      k' ∈ st.results ∨ ((none : Option NodeKey) = none ∧ k' = extendKey none link)
    by_cases hcont : st.results.contains (extendKey none link) = true
    · rw [if_pos hcont]
      constructor
      · exact fun h => Or.inl h
      · rintro (h | ⟨-, rfl⟩)
        · exact h
        · exact List.elem_iff.mp hcont
    · rw [if_neg hcont]
      simp [List.mem_append, List.mem_singleton]

/-! ## Effect of the whole chain loop (`processBranches`) -/

theorem processBranches_snd (o : Outcome) (d : Rat) (ls : List Link) :
    ∀ (st : ReportState) (parent : Option NodeKey),
      (processBranches st parent o d ls).2 = chainEnd parent ls := by
  induction ls with
  | nil => intro st parent; rfl
  | cons l ls ih => intro st parent; exact ih _ _

theorem processBranches_session (o : Outcome) (d : Rat) (ls : List Link) :
    ∀ (st : ReportState) (parent : Option NodeKey),
      (processBranches st parent o d ls).1.summary = st.summary := by
  induction ls with
  | nil => intro st parent; rfl
  | cons l ls ih =>
    intro st parent
    rw [processBranches, ih]
    rfl

theorem processBranches_summaryL (o : Outcome) (d : Rat) (ls : List Link) :
    ∀ (st : ReportState) (parent : Option NodeKey) (k' : NodeKey) (o' : Outcome),
      nodeSummary (processBranches st parent o d ls).1 k' o' =
        nodeSummary st k' o' +
          (if o' = o then (chainKeys parent ls).count k' else 0) := by
  induction ls with
  | nil => intro st parent k' o'; simp [processBranches, chainKeys]
  | cons l ls ih =>
    intro st parent k' o'
    rw [processBranches, ih, processBranch_snd, processBranch_summaryL]
    rw [chainKeys, List.count_cons]
    by_cases ho : o' = o
    · by_cases hk : k' = extendKey parent l
      · subst hk
        simp [ho]
        omega
      · have hbeq : (extendKey parent l == k') = false :=
          beq_eq_false_iff_ne.mpr (Ne.symm hk)
        simp [ho, hk, hbeq]
    · simp [ho]

theorem processBranches_memL (o : Outcome) (d : Rat) (ls : List Link) :
    ∀ (st : ReportState) (parent : Option NodeKey) (k' : NodeKey),
      nodeMem (processBranches st parent o d ls).1 k' = true ↔
        nodeMem st k' = true ∨ k' ∈ chainKeys parent ls := by
  induction ls with
  | nil => intro st parent k'; simp [processBranches, chainKeys]
  | cons l ls ih =>
    intro st parent k'
    rw [processBranches, ih, processBranch_snd, processBranch_memL]
    rw [chainKeys, List.mem_cons]
    tauto

theorem processBranches_children (o : Outcome) (d : Rat) (ls : List Link) :
    ∀ (st : ReportState) (parent : Option NodeKey) (p' c' : NodeKey),
      (∀ p, parent = some p → nodeMem st p = true) →
      (c' ∈ nodeChildren (processBranches st parent o d ls).1 p' ↔
        c' ∈ nodeChildren st p' ∨ (p', c') ∈ chainPairs parent ls) := by
  induction ls with
  | nil => intro st parent p' c' _; simp [processBranches, chainPairs]
  | cons l ls ih =>
    intro st parent p' c' hok
    rw [processBranches]
    have hok2 : ∀ q, (some (processBranch st parent o d l).2 = some q) →
        nodeMem (processBranch st parent o d l).1 q = true := by
      intro q hq
      injection hq with hq
      subst hq
      rw [processBranch_snd]
      exact (processBranch_memL st parent o d l _).mpr (Or.inr rfl)
    rw [ih _ _ _ _ hok2, processBranch_snd,
      processBranch_children st parent o d l p' c' hok]
    cases parent with
    | none => simp [chainPairs]
    | some p =>
      simp only [chainPairs, List.mem_cons, Prod.mk.injEq, Option.some.injEq]
      constructor
      · rintro ((h | ⟨rfl, rfl⟩) | h)
        · exact Or.inl h
        · exact Or.inr (Or.inl ⟨rfl, rfl⟩)
        · exact Or.inr (Or.inr h)
      · rintro (h | ⟨rfl, rfl⟩ | h)
        · exact Or.inl (Or.inl h)
        · exact Or.inl (Or.inr ⟨rfl, rfl⟩)
        · exact Or.inr h

theorem processBranches_results (o : Outcome) (d : Rat) (ls : List Link) :
    ∀ (st : ReportState) (parent : Option NodeKey) (k' : NodeKey),
      k' ∈ (processBranches st parent o d ls).1.results ↔
        k' ∈ st.results ∨
          (parent = none ∧ (chainKeys parent ls).head? = some k') := by
  induction ls with
  | nil => intro st parent k'; simp [processBranches, chainKeys]
  | cons l ls ih =>
    intro st parent k'
    rw [processBranches, ih, processBranch_snd, processBranch_results]
    cases parent with
    | some p => simp [chainKeys]
    | none =>
      simp only [chainKeys, List.head?_cons, Option.some.injEq]
      constructor
      · rintro ((h | ⟨-, rfl⟩) | ⟨h, -⟩)
        · exact Or.inl h
        · exact Or.inr ⟨trivial, rfl⟩
        · exact absurd h (by simp)
      · rintro (h | ⟨-, rfl⟩)
        · exact Or.inl (Or.inl h)
        · exact Or.inl (Or.inr ⟨trivial, rfl⟩)

/-! ## Effect of one completed-test event (`appendEvent`) -/

theorem appendEvent_summaryL (st : ReportState) (e : Event) (k' : NodeKey)
    (o' : Outcome) :
    nodeSummary (appendEvent st e) k' o' =
      nodeSummary st k' o' +
        (if o' = e.outcome then (eventKeys e).count k' else 0) := by
  unfold appendEvent
  dsimp only
  cases hr : (processBranches st none e.outcome e.duration e.chain.dropLast).2 with
  | none =>
    show summaryL (processBranches st none e.outcome e.duration
      e.chain.dropLast).1.nodes k' o' = _
    exact processBranches_summaryL e.outcome e.duration _ st none k' o'
  | some p =>
    show summaryL (addLeaf (processBranches st none e.outcome e.duration
      e.chain.dropLast).1.nodes p _) k' o' = _
    rw [summaryL_addLeaf]
    exact processBranches_summaryL e.outcome e.duration _ st none k' o'

theorem appendEvent_memL (st : ReportState) (e : Event) (k' : NodeKey) :
    nodeMem (appendEvent st e) k' = true ↔
      nodeMem st k' = true ∨ k' ∈ eventKeys e := by
  unfold appendEvent
  dsimp only
  cases hr : (processBranches st none e.outcome e.duration e.chain.dropLast).2 with
  | none =>
    show memL (processBranches st none e.outcome e.duration
      e.chain.dropLast).1.nodes k' = true ↔ _
    exact processBranches_memL e.outcome e.duration _ st none k'
  | some p =>
    show memL (addLeaf (processBranches st none e.outcome e.duration
      e.chain.dropLast).1.nodes p _) k' = true ↔ _
    rw [memL_addLeaf]
    exact processBranches_memL e.outcome e.duration _ st none k'

theorem appendEvent_children (st : ReportState) (e : Event) (p' c' : NodeKey) :
    c' ∈ nodeChildren (appendEvent st e) p' ↔
      c' ∈ nodeChildren st p' ∨ (p', c') ∈ childPairs e := by
  unfold appendEvent
  dsimp only
  cases hr : (processBranches st none e.outcome e.duration e.chain.dropLast).2 with
  | none =>
    show c' ∈ childrenL (processBranches st none e.outcome e.duration
      e.chain.dropLast).1.nodes p' ↔ _
    exact processBranches_children e.outcome e.duration _ st none p' c'
      (fun _ h => nomatch h)
  | some p =>
    show c' ∈ childrenL (addLeaf (processBranches st none e.outcome e.duration
      e.chain.dropLast).1.nodes p _) p' ↔ _
    rw [childrenL_addLeaf]
    exact processBranches_children e.outcome e.duration _ st none p' c'
      (fun _ h => nomatch h)

theorem appendEvent_results (st : ReportState) (e : Event) (k' : NodeKey) :
    k' ∈ (appendEvent st e).results ↔
      k' ∈ st.results ∨ (eventKeys e).head? = some k' := by
  unfold appendEvent
  dsimp only
  cases hr : (processBranches st none e.outcome e.duration e.chain.dropLast).2 with
  | none =>
    show k' ∈ (processBranches st none e.outcome e.duration
      e.chain.dropLast).1.results ↔ _
    rw [processBranches_results]
    simp [eventKeys]
  | some p =>
    show k' ∈ (processBranches st none e.outcome e.duration
      e.chain.dropLast).1.results ↔ _
    rw [processBranches_results]
    simp [eventKeys]

theorem appendEvent_session (st : ReportState) (e : Event) (o' : Outcome) :
    (appendEvent st e).summary.get o' =
      st.summary.get o' + (if o' = e.outcome then 1 else 0) := by
  unfold appendEvent
  dsimp only
  cases hr : (processBranches st none e.outcome e.duration e.chain.dropLast).2 with
  | none =>
    show ((processBranches st none e.outcome e.duration
      e.chain.dropLast).1.summary.bump e.outcome).get o' = _
    rw [Summary.get_bump, processBranches_session]
  | some p =>
    show ((processBranches st none e.outcome e.duration
      e.chain.dropLast).1.summary.bump e.outcome).get o' = _
    rw [Summary.get_bump, processBranches_session]

/-! ## Effect of a whole event sequence (`processEvents`) -/

theorem processEvents_cons (st : ReportState) (e : Event) (es : List Event) :
    processEvents st (e :: es) = processEvents (appendEvent st e) es := rfl

theorem processEvents_summaryL (l : List Event) :
    ∀ (st : ReportState) (k' : NodeKey) (o' : Outcome),
      nodeSummary (processEvents st l) k' o' =
        nodeSummary st k' o' +
          (l.map (fun e => if o' = e.outcome then (eventKeys e).count k' else 0)).sum := by
  induction l with
  | nil => intro st k' o'; simp [processEvents]
  | cons e es ih =>
    intro st k' o'
    rw [processEvents_cons, ih, appendEvent_summaryL, List.map_cons, List.sum_cons,
      Nat.add_assoc]

theorem processEvents_memL (l : List Event) :
    ∀ (st : ReportState) (k' : NodeKey),
      nodeMem (processEvents st l) k' = true ↔
        nodeMem st k' = true ∨ ∃ e ∈ l, k' ∈ eventKeys e := by
  induction l with
  | nil => intro st k'; simp [processEvents]
  | cons e es ih =>
    intro st k'
    rw [processEvents_cons, ih, appendEvent_memL]
    simp only [List.mem_cons]
    constructor
    · rintro ((h | h) | ⟨e', he', h⟩)
      · exact Or.inl h
      · exact Or.inr ⟨e, Or.inl rfl, h⟩
      · exact Or.inr ⟨e', Or.inr he', h⟩
    · rintro (h | ⟨e', (rfl | he'), h⟩)
      · exact Or.inl (Or.inl h)
      · exact Or.inl (Or.inr h)
      · exact Or.inr ⟨e', he', h⟩

theorem processEvents_children (l : List Event) :
    ∀ (st : ReportState) (p' c' : NodeKey),
      c' ∈ nodeChildren (processEvents st l) p' ↔
        c' ∈ nodeChildren st p' ∨ ∃ e ∈ l, (p', c') ∈ childPairs e := by
  induction l with
  | nil => intro st p' c'; simp [processEvents]
  | cons e es ih =>
    intro st p' c'
    rw [processEvents_cons, ih, appendEvent_children]
    simp only [List.mem_cons]
    constructor
    · rintro ((h | h) | ⟨e', he', h⟩)
      · exact Or.inl h
      · exact Or.inr ⟨e, Or.inl rfl, h⟩
      · exact Or.inr ⟨e', Or.inr he', h⟩
    · rintro (h | ⟨e', (rfl | he'), h⟩)
      · exact Or.inl (Or.inl h)
      · exact Or.inl (Or.inr h)
      · exact Or.inr ⟨e', he', h⟩

theorem processEvents_results (l : List Event) :
    ∀ (st : ReportState) (k' : NodeKey),
      k' ∈ (processEvents st l).results ↔
        k' ∈ st.results ∨ ∃ e ∈ l, (eventKeys e).head? = some k' := by
  induction l with
  | nil => intro st k'; simp [processEvents]
  | cons e es ih =>
    intro st k'
    rw [processEvents_cons, ih, appendEvent_results]
    simp only [List.mem_cons]
    constructor
    · rintro ((h | h) | ⟨e', he', h⟩)
      · exact Or.inl h
      · exact Or.inr ⟨e, Or.inl rfl, h⟩
      · exact Or.inr ⟨e', Or.inr he', h⟩
    · rintro (h | ⟨e', (rfl | he'), h⟩)
      · exact Or.inl (Or.inl h)
      · exact Or.inl (Or.inr h)
      · exact Or.inr ⟨e', he', h⟩

theorem processEvents_session (l : List Event) :
    ∀ (st : ReportState) (o' : Outcome),
      (processEvents st l).summary.get o' =
        st.summary.get o' +
          (l.map (fun e => if o' = e.outcome then 1 else 0)).sum := by
  induction l with
  | nil => intro st o'; simp [processEvents]
  | cons e es ih =>
    intro st o'
    rw [processEvents_cons, ih, appendEvent_session, List.map_cons, List.sum_cons,
      Nat.add_assoc]

/-- C7 amended: order commutativity of report aggregation, except for
cumulative durations. For any two orderings of the same finite multiset of
completed-test events (each with a chain of at least two segments, as every
real test id yields), feeding them through `_appendrow` produces the same
final tree up to children-list ordering: the same set of interned branch
nodes (same name, namespace, parameter set and parent, i.e. the same
`NodeKey`s), the same per-node outcome summaries, the same root set, the same
parent→child edges, and the same session-wide summary. Cumulative durations
are excluded: they are accumulated with IEEE-754 float addition, which is not
associative, so they are not order-invariant (see the counterexample). -/
theorem report_order_commutative (l1 l2 : List Event) (hp : l1.Perm l2)
    (_hlen : ∀ e ∈ l1, 2 ≤ e.chain.length) :
    (∀ k, nodeMem (processEvents initState l1) k = true ↔
          nodeMem (processEvents initState l2) k = true) ∧
    (∀ k o, nodeSummary (processEvents initState l1) k o =
            nodeSummary (processEvents initState l2) k o) ∧
    (∀ k, k ∈ (processEvents initState l1).results ↔
          k ∈ (processEvents initState l2).results) ∧
    (∀ p c, c ∈ nodeChildren (processEvents initState l1) p ↔
            c ∈ nodeChildren (processEvents initState l2) p) ∧
    (∀ o, (processEvents initState l1).summary.get o =
          (processEvents initState l2).summary.get o) := by
  refine ⟨?_, ?_, ?_, ?_, ?_⟩
  · intro k
    rw [processEvents_memL, processEvents_memL]
    constructor
    · rintro (h | ⟨e, he, hk⟩)
      · exact Or.inl h
      · exact Or.inr ⟨e, hp.mem_iff.mp he, hk⟩
    · rintro (h | ⟨e, he, hk⟩)
      · exact Or.inl h
      · exact Or.inr ⟨e, hp.mem_iff.mpr he, hk⟩
  · intro k o
    rw [processEvents_summaryL, processEvents_summaryL]
    congr 1
    exact (hp.map _).sum_eq
  · intro k
    rw [processEvents_results, processEvents_results]
    constructor
    · rintro (h | ⟨e, he, hk⟩)
      · exact Or.inl h
      · exact Or.inr ⟨e, hp.mem_iff.mp he, hk⟩
    · rintro (h | ⟨e, he, hk⟩)
      · exact Or.inl h
      · exact Or.inr ⟨e, hp.mem_iff.mpr he, hk⟩
  · intro p c
    rw [processEvents_children, processEvents_children]
    constructor
    · rintro (h | ⟨e, he, hk⟩)
      · exact Or.inl h
      · exact Or.inr ⟨e, hp.mem_iff.mp he, hk⟩
    · rintro (h | ⟨e, he, hk⟩)
      · exact Or.inl h
      · exact Or.inr ⟨e, hp.mem_iff.mpr he, hk⟩
  · intro o
    rw [processEvents_session, processEvents_session]
    congr 1
    exact (hp.map _).sum_eq

/-- Witness for C7's amended theorem: processing the two concrete scenario
events in either order yields identical node sets, summaries, roots, edges
and session summary. -/
theorem report_order_commutative_witness :
    (∀ k, nodeMem (processEvents initState [scenarioEvent, scenarioEventB]) k = true ↔
          nodeMem (processEvents initState [scenarioEventB, scenarioEvent]) k = true) ∧
    (∀ k o, nodeSummary (processEvents initState [scenarioEvent, scenarioEventB]) k o =
            nodeSummary (processEvents initState [scenarioEventB, scenarioEvent]) k o) ∧
    (∀ k, k ∈ (processEvents initState [scenarioEvent, scenarioEventB]).results ↔
          k ∈ (processEvents initState [scenarioEventB, scenarioEvent]).results) ∧
    (∀ p c, c ∈ nodeChildren (processEvents initState [scenarioEvent, scenarioEventB]) p ↔
            c ∈ nodeChildren (processEvents initState [scenarioEventB, scenarioEvent]) p) ∧
    (∀ o, (processEvents initState [scenarioEvent, scenarioEventB]).summary.get o =
          (processEvents initState [scenarioEventB, scenarioEvent]).summary.get o) :=
  report_order_commutative [scenarioEvent, scenarioEventB]
    [scenarioEventB, scenarioEvent] (List.Perm.swap scenarioEventB scenarioEvent [])
    (by decide)

/-- C7 counterexample: cumulative durations are NOT order-invariant, so the
claim as stated is false. The same three-event multiset (durations `10 ^ 16`,
1 and 1, all exactly representable binary64 values, all touching the shared
branch node `a`) processed in two different orders leaves that node with
cumulative duration `10 ^ 16` in one order but `10 ^ 16 + 2` in the other,
because `node.duration += test_duration` rounds `10 ^ 16 + 1` back to
`10 ^ 16` (the spacing of binary64 values there is 2). -/
theorem report_duration_order_dependent :
    ([evBig, evOne, evOne].Perm [evOne, evOne, evBig]) ∧
    (∀ e ∈ [evBig, evOne, evOne], 2 ≤ e.chain.length) ∧
    nodeDuration (processEvents initState [evBig, evOne, evOne])
      (NodeKey.root "a" "a" []) = 10000000000000000 ∧
    nodeDuration (processEvents initState [evOne, evOne, evBig])
      (NodeKey.root "a" "a" []) = 10000000000000002 ∧
    ((10000000000000000 : Rat) ≠ 10000000000000002) :=
  ⟨(List.Perm.swap evOne evBig [evOne]).trans
      (List.Perm.cons evOne (List.Perm.swap evOne evBig [])),
    by decide, by decide, by decide, by decide⟩
